import Mathlib

/-!
# Verification of the `rwc` counting engine

A shallow embedding of the counting engine of `rwc` (src/count.rs,
src/main.rs, src/cli.rs, src/error.rs) together with proofs about it.

Modelling conventions:
* A byte stream is a `List Nat` of byte values; file contents and the
  standard-input stream are fully materialised lists (the Rust code reads
  them in 1 MiB chunks carrying the scan state across chunk boundaries,
  which computes the same fold over the whole stream).
* A path identifier is a Lean `String` (a list of Unicode scalar values,
  as Rust's `String`/`PathBuf` after UTF-8 decoding).
* `io::Error` carries no observable payload in this model.
* The rendering layer (`print.rs`, `format.rs`) is out of scope; `run`
  returns the sorted entry list and final `Options` it would hand to
  `print`.
-/

/-- `Count` from count.rs: an optional metric value (`None` = "N/A"). -/
structure Count where
  val : Option Nat
deriving DecidableEq

/-- `Counts` from count.rs: the four metrics for one input. -/
structure Counts where
  bytes : Count
  chars : Count
  words : Count
  lines : Count
deriving DecidableEq

/-- `impl ops::Add<Count> for usize` from count.rs: adding an absent
metric leaves the accumulator unchanged. -/
def addCount (n : Nat) (c : Count) : Nat :=
  match c.val with
  | some m => n + m
  | none => n

/-- `Error` from error.rs. The `io::Error` payload is not observable here. -/
inductive Error where
  | ioError : Error
  | utf8Error : Error
  | pathError : List Nat → Error
  | many : List Error → Error
  | custom : String → Error
  | parseFormatError : String → Error

/-- `Format` from format.rs. -/
inductive Format where
  | table : Format
  | csv : Format
deriving DecidableEq

/-- `Options` from cli.rs: the resolved flag set handed to the core. -/
structure Options where
  bytes : Bool
  chars : Bool
  words : Bool
  lines : Bool
  show_totals : Bool
deriving DecidableEq

/-- `Cli` from cli.rs: the raw command-line flag set. -/
structure Cli where
  bytes : Bool
  chars : Bool
  words : Bool
  lines : Bool
  show_totals : Bool
  format : Format
  files0_from : Option String
  files : List String

/-- `impl From<&Cli> for Options` from cli.rs: default-metric substitution. -/
def optionsFromCli (cli : Cli) : Options :=
  if !(cli.bytes || cli.chars || cli.words || cli.lines) then
    { bytes := true, chars := false, words := true, lines := true,
      show_totals := cli.show_totals }
  else
    { bytes := cli.bytes, chars := cli.chars, words := cli.words,
      lines := cli.lines, show_totals := cli.show_totals }

/-- Rust `u8::is_ascii_whitespace` / `char::is_ascii_whitespace` on a
code value: space, tab, line feed, form feed, carriage return. -/
def isAsciiWhitespaceByte (b : Nat) : Bool :=
  b = 0x20 || b = 0x09 || b = 0x0A || b = 0x0C || b = 0x0D

/-- `char::is_ascii_whitespace` on a Unicode scalar value. -/
def isAsciiWhitespaceChar (c : Char) : Bool :=
  isAsciiWhitespaceByte c.toNat

/-- UTF-8 encoding of one Unicode scalar value (as Rust `char::encode_utf8`). -/
def utf8EncodeChar (c : Char) : List Nat :=
  let v := c.toNat
  if v < 0x80 then [v]
  else if v < 0x800 then [0xC0 + v / 0x40, 0x80 + v % 0x40]
  else if v < 0x10000 then
    [0xE0 + v / 0x1000, 0x80 + v / 0x40 % 0x40, 0x80 + v % 0x40]
  else
    [0xF0 + v / 0x40000, 0x80 + v / 0x1000 % 0x40, 0x80 + v / 0x40 % 0x40,
     0x80 + v % 0x40]

/-- UTF-8 encoding of a sequence of Unicode scalar values. -/
def utf8Encode : List Char → List Nat
  | [] => []
  | c :: cs => utf8EncodeChar c ++ utf8Encode cs

/-- Lower bound for the first continuation byte after a three-byte lead:
0xE0 forbids overlong encodings. -/
def lead3lo (b0 : Nat) : Nat :=
  if b0 = 0xE0 then 0xA0 else 0x80

/-- Upper bound for the first continuation byte after a three-byte lead:
0xED forbids surrogate code points. -/
def lead3hi (b0 : Nat) : Nat :=
  if b0 = 0xED then 0x9F else 0xBF

/-- Lower bound for the first continuation byte after a four-byte lead:
0xF0 forbids overlong encodings. -/
def lead4lo (b0 : Nat) : Nat :=
  if b0 = 0xF0 then 0x90 else 0x80

/-- Upper bound for the first continuation byte after a four-byte lead:
0xF4 forbids values above U+10FFFF. -/
def lead4hi (b0 : Nat) : Nat :=
  if b0 = 0xF4 then 0x8F else 0xBF

/-- State of the incremental strict UTF-8 decoder: the scalar values
decoded so far, plus an optional pending multi-byte sequence given as
(partial value, continuation bytes still needed, lower bound and upper
bound for the next byte).  The bounds on the first continuation byte are
what rejects overlong encodings, surrogates and values above U+10FFFF. -/
def Utf8State : Type :=
  List Char × Option (Nat × Nat × Nat × Nat)

/-- One step of the incremental strict UTF-8 decoder (the per-byte
transition of the `utf8` crate's strict decoding); `none` is the failed
state, reached on any invalid byte and never left. -/
def utf8Step : Option Utf8State → Nat → Option Utf8State
  | none, _ => none
  | some (acc, none), b =>
    if b < 0x80 then some (acc ++ [Char.ofNat b], none)
    else if 0xC2 ≤ b ∧ b ≤ 0xDF then some (acc, some (b - 0xC0, 1, 0x80, 0xBF))
    else if 0xE0 ≤ b ∧ b ≤ 0xEF then some (acc, some (b - 0xE0, 2, lead3lo b, lead3hi b))
    else if 0xF0 ≤ b ∧ b ≤ 0xF4 then some (acc, some (b - 0xF0, 3, lead4lo b, lead4hi b))
    else none
  | some (acc, some (v, need, lo, hi)), b =>
    if lo ≤ b ∧ b ≤ hi then
      if need = 1 then some (acc ++ [Char.ofNat (v * 0x40 + (b - 0x80))], none)
      else some (acc, some (v * 0x40 + (b - 0x80), need - 1, 0x80, 0xBF))
    else none

/-- Strict UTF-8 decoding of a whole byte stream (the behaviour of the
`utf8` crate's `BufReadDecoder::next_strict` run to completion, and of
`String::from_utf8`): rejects truncated sequences, overlong encodings,
surrogate code points and values above U+10FFFF; `none` means the stream
contains an invalid UTF-8 byte sequence. -/
def decodeUtf8 (bs : List Nat) : Option (List Char) :=
  match bs.foldl utf8Step (some ([], none)) with
  | some (acc, none) => some acc
  | _ => none

/-- One iteration of the word/line loop shared by the byte-scan strategies
in count.rs; the state is (words, lines, in_word). -/
def scanByteStep (st : Nat × Nat × Bool) (b : Nat) : Nat × Nat × Bool :=
  let lines := if b = 0x0A then st.2.1 + 1 else st.2.1
  if isAsciiWhitespaceByte b then
    (st.1 + (if st.2.2 then 1 else 0), lines, false)
  else
    (st.1, lines, true)

/-- One iteration of the per-scalar loop in `count_bytes_chars_words_lines`. -/
def scanCharStep (st : Nat × Nat × Bool) (c : Char) : Nat × Nat × Bool :=
  let lines := if c = '\n' then st.2.1 + 1 else st.2.1
  if isAsciiWhitespaceChar c then
    (st.1 + (if st.2.2 then 1 else 0), lines, false)
  else
    (st.1, lines, true)

/-- `count_bytes_words_lines` from count.rs (byte-scan words+lines strategy):
bytes is the sum of chunk lengths, the word/line state is folded over every
byte, and a trailing in-progress word is flushed at end of stream. -/
def count_bytes_words_lines (bs : List Nat) : Counts :=
  let st := bs.foldl scanByteStep (0, 0, false)
  { bytes := ⟨some bs.length⟩, chars := ⟨none⟩,
    words := ⟨some (st.1 + (if st.2.2 then 1 else 0))⟩,
    lines := ⟨some st.2.1⟩ }

/-- `count_bytes_lines` from count.rs (byte-scan lines-only strategy):
bytes is the sum of chunk lengths, lines is `bytecount::count(buffer, b'\n')`
summed over chunks, i.e. the number of 0x0A bytes. -/
def count_bytes_lines (bs : List Nat) : Counts :=
  { bytes := ⟨some bs.length⟩, chars := ⟨none⟩, words := ⟨none⟩,
    lines := ⟨some (bs.count 0x0A)⟩ }

/-- `count_bytes_chars_words_lines` from count.rs (decode-count strategy):
strict incremental UTF-8 decode; on success, bytes accumulates the byte
length of every decoded run (the byte length of the decoded text), and the
per-scalar loop counts chars, words and lines, flushing a trailing word. -/
def count_bytes_chars_words_lines (bs : List Nat) : Except Error Counts :=
  match decodeUtf8 bs with
  | none => .error .utf8Error
  | some cs =>
    let st := cs.foldl scanCharStep (0, 0, false)
    .ok { bytes := ⟨some (utf8Encode cs).length⟩, chars := ⟨some cs.length⟩,
          words := ⟨some (st.1 + (if st.2.2 then 1 else 0))⟩,
          lines := ⟨some st.2.1⟩ }

/-- `count_readable` from count.rs: the stream-strategy dispatcher.  The
`bytes` flag is ignored (`_bytes` in the source). -/
def count_readable (bs : List Nat) (_bytes chars words lines : Bool) :
    Except Error Counts :=
  if chars then
    count_bytes_chars_words_lines bs
  else if lines && !words then
    .ok (count_bytes_lines bs)
  else
    .ok (count_bytes_words_lines bs)

/-- The ambient file system: per-path file contents (what `File::open` +
reading yields) and per-path stat sizes (what `fs::metadata(..).len()`
yields), both partial — `none` models the corresponding io::Error. -/
structure FS where
  content : String → Option (List Nat)
  statLen : String → Option Nat

/-- `count_bytes` from count.rs (length-lookup strategy): a pure metadata
query, touching only the stat size. -/
def count_bytes (fs : FS) (path : String) : Except Error Counts :=
  match fs.statLen path with
  | none => .error .ioError
  | some n =>
    .ok { bytes := ⟨some n⟩, chars := ⟨none⟩, words := ⟨none⟩,
          lines := ⟨none⟩ }

/-- `impl CountablePath for P` from count.rs: bytes-only selections use the
length lookup; otherwise the file is opened and handed to `count_readable`. -/
def countPath (fs : FS) (path : String) (bytes chars words lines : Bool) :
    Except Error Counts :=
  if bytes && !(chars || words || lines) then
    count_bytes fs path
  else
    match fs.content path with
    | none => .error .ioError
    | some bs => count_readable bs bytes chars words lines

/-- `count_paths` from main.rs: each path is counted independently (in
parallel in the source; the result collection is order-preserving). -/
def count_paths (fs : FS) (paths : List String) (opts : Options) :
    List (Except Error Counts × String) :=
  paths.map fun path =>
    (countPath fs path opts.bytes opts.chars opts.words opts.lines, path)

/-- Total lexicographic comparison of scalar-value lists, modelling the
(total) `PathBuf` ordering used by `partial_cmp` in run's sort. -/
def lexLe : List Char → List Char → Bool
  | [], _ => true
  | _ :: _, [] => false
  | a :: xs, b :: ys =>
    if a.toNat < b.toNat then true
    else if b.toNat < a.toNat then false
    else lexLe xs ys

/-- The comparator of `counts.par_sort_by(...)` in main.rs: compare entries
by their path identifier. -/
def pathLe (a b : Except Error Counts × String) : Prop :=
  lexLe a.2.data b.2.data = true

instance : DecidableRel pathLe := fun a b => by
  unfold pathLe
  infer_instance

/-- `par_sort_by` with the path comparator, modelled as a stable
comparison sort. -/
def sortByPath (l : List (Except Error Counts × String)) :
    List (Except Error Counts × String) :=
  List.insertionSort pathLe l

/-- Helper for `splitOnByte`: prepend a byte to the first segment. -/
def consHead (b : Nat) : List (List Nat) → List (List Nat)
  | [] => [[b]]
  | s :: rest => (b :: s) :: rest

/-- `BufRead::split(d)` over fully-buffered content: the segments between
delimiter bytes, the delimiter not included, and no trailing empty segment
when the stream ends with the delimiter. -/
def splitOnByte (d : Nat) : List Nat → List (List Nat)
  | [] => []
  | b :: bs => if b = d then [] :: splitOnByte d bs else consHead b (splitOnByte d bs)

/-- `String::from_utf8`: strict decode of one segment; the error carries
the rejected bytes (`FromUtf8Error::into_bytes`). -/
def string_from_utf8 (seg : List Nat) : Except (List Nat) String :=
  match decodeUtf8 seg with
  | some cs => .ok ⟨cs⟩
  | none => .error seg

/-- Unwrap of an item already known to be `ok` (Rust `Result::unwrap`);
the `error` arm is unreachable at every use site. -/
def unwrapSeg : Except Unit (List Nat) → List Nat
  | .ok seg => seg
  | .error _ => []

/-- Unwrap of a decoded segment already known to be `ok`. -/
def unwrapPath : Except (List Nat) String → String
  | .ok s => s
  | .error _ => ""

/-- Unwrap-err of a decoded segment already known to be an error, mapped
through `Error::from` (a `FromUtf8Error` becomes `Error::PATH(bytes)`). -/
def unwrapPathErr : Except (List Nat) String → Error
  | .ok _ => Error.ioError
  | .error bytes => Error.pathError bytes

/-- `read_paths0_from` from main.rs, over the items of the split iterator
(`.error ()` models an io::Error item produced while reading).  Phase 1
partitions off all read failures and fails with a combined error if any
exist; phase 2 decodes every segment, again partitioning off all decode
failures into a combined error; only if both phases are clean is the
ordered path list returned. -/
def read_paths0_from (items : List (Except Unit (List Nat))) :
    Except Error (List String) :=
  let part1 := items.partition (·.isOk)
  if part1.2.length > 0 then
    .error (.many (part1.2.map fun _ => Error.ioError))
  else
    let part2 := (part1.1.map (fun it => string_from_utf8 (unwrapSeg it))).partition (·.isOk)
    if part2.2.length > 0 then
      .error (.many (part2.2.map unwrapPathErr))
    else
      .ok (part2.1.map unwrapPath)

/-- `read_paths0_from` applied to an in-memory byte stream: the split
iterator yields exactly the NUL-split segments and no read errors. -/
def read_paths0_pure (bs : List Nat) : Except Error (List String) :=
  read_paths0_from ((splitOnByte 0 bs).map .ok)

/-- `run` from main.rs up to the print boundary: produces the sorted entry
list and the final `Options` that are handed to `print`.  The sort is run
in every branch; the Stdin fallback additionally forces `show_totals`. -/
def run (opts : Options) (files0_from : Option String) (files : List String)
    (input : List Nat) (fs : FS) :
    Except Error (List (Except Error Counts × String) × Options) :=
  match files0_from with
  | some fromPath =>
    if files.length > 0 then
      .error (.custom "file operands cannot be combined with --files0-from")
    else
      match (if fromPath = "-" then read_paths0_pure input
             else
               match fs.content fromPath with
               | some bs => read_paths0_pure bs
               | none => .error .ioError) with
      | .error e => .error e
      | .ok paths => .ok (sortByPath (count_paths fs paths opts), opts)
  | none =>
    if files.length > 0 then
      .ok (sortByPath (count_paths fs files opts), opts)
    else
      let opts2 := { opts with show_totals := true }
      .ok (sortByPath
            [(count_readable input opts.bytes opts.chars opts.words opts.lines,
              "Stdin")], opts2)

/-- Fixture: a file system with the single file "a" (contents "hi\n"). -/
def fs1 : FS :=
  { content := fun p => if p = "a" then some [0x68, 0x69, 0x0A] else none,
    statLen := fun p => if p = "a" then some 3 else none }

/-- Fixture: same stat sizes as `fs1` but no readable contents at all. -/
def fs2 : FS :=
  { content := fun _ => none,
    statLen := fun p => if p = "a" then some 3 else none }

/-- Fixture: the default metric selection (bytes, words, lines). -/
def opts1 : Options :=
  { bytes := true, chars := false, words := true, lines := true,
    show_totals := false }

/-- The mixed ASCII/emoji example text from the spec and the count.rs tests. -/
def c8Text : String :=
  "hello😀😃😄😁😆😅😂🤣😀😃😄😁 hello world 12345\n67890😀 😃 😄 😁"

/-- Fixture: a file system holding the path-list file "f" whose contents
are the NUL-separated list "a\0b". -/
def fs3 : FS :=
  { content := fun p => if p = "f" then some [0x61, 0x00, 0x62] else none,
    statLen := fun _ => none }

/-! ## Helper lemmas about Unicode scalar values -/

theorem char_toNat_ofNat {n : Nat} (h : n.isValidChar) :
    (Char.ofNat n).toNat = n := by
  rw [Char.ofNat, dif_pos h]
  rfl

theorem char_ofNat_toNat (c : Char) : Char.ofNat c.toNat = c := by
  have h : c.toNat.isValidChar := c.valid
  rw [Char.ofNat, dif_pos h]
  apply Char.eq_of_val_eq
  apply UInt32.eq_of_toBitVec_eq
  apply BitVec.eq_of_toNat_eq
  simp [Char.ofNatAux, Char.toNat, UInt32.toNat]

theorem char_valid_ranges (c : Char) :
    c.toNat < 0xD800 ∨ (0xE000 ≤ c.toNat ∧ c.toNat < 0x110000) := by
  have h : c.toNat.isValidChar := c.valid
  rcases h with h | ⟨h1, h2⟩
  · exact Or.inl h
  · exact Or.inr ⟨h1, h2⟩


/-! ## UTF-8 round trip: the strict decoder succeeds exactly on
byte streams that are the UTF-8 encoding of some scalar-value sequence,
and then decodes them to exactly that sequence. -/
theorem utf8_foldl_none : ∀ l : List Nat, List.foldl utf8Step none l = none := by
  intro l
  induction l with
  | nil => rfl
  | cons b t ih => simp [List.foldl_cons, utf8Step, ih]

theorem utf8Step_encodeChar (acc : List Char) (c : Char) :
    List.foldl utf8Step (some (acc, none)) (utf8EncodeChar c) =
      some (acc ++ [c], none) := by
  have hv := char_valid_ranges c
  by_cases h1 : c.toNat < 0x80
  · simp only [utf8EncodeChar, if_pos h1, List.foldl_cons, List.foldl_nil]
    simp [utf8Step, h1, char_ofNat_toNat]
  · by_cases h2 : c.toNat < 0x800
    · simp only [utf8EncodeChar, if_neg h1, if_pos h2, List.foldl_cons, List.foldl_nil]
      rw [show utf8Step (some (acc, none)) (0xC0 + c.toNat / 0x40) =
          some (acc, some (0xC0 + c.toNat / 0x40 - 0xC0, 1, 0x80, 0xBF)) by
        simp only [utf8Step]
        rw [if_neg (by omega), if_pos (by omega)]]
      rw [show utf8Step (some (acc, some (0xC0 + c.toNat / 0x40 - 0xC0, 1, 0x80, 0xBF)))
            (0x80 + c.toNat % 0x40) =
          some (acc ++ [Char.ofNat ((0xC0 + c.toNat / 0x40 - 0xC0) * 0x40 +
            (0x80 + c.toNat % 0x40 - 0x80))], none) by
        simp only [utf8Step]
        rw [if_pos (by omega), if_pos trivial]]
      rw [show (0xC0 + c.toNat / 0x40 - 0xC0) * 0x40 + (0x80 + c.toNat % 0x40 - 0x80) =
          c.toNat from by omega]
      rw [char_ofNat_toNat]
    · by_cases h3 : c.toNat < 0x10000
      · simp only [utf8EncodeChar, if_neg h1, if_neg h2, if_pos h3, List.foldl_cons,
          List.foldl_nil]
        rw [show utf8Step (some (acc, none)) (0xE0 + c.toNat / 0x1000) =
            some (acc, some (0xE0 + c.toNat / 0x1000 - 0xE0, 2,
              lead3lo (0xE0 + c.toNat / 0x1000), lead3hi (0xE0 + c.toNat / 0x1000))) by
          simp only [utf8Step]
          rw [if_neg (by omega), if_neg (by omega), if_pos (by omega)]]
        rw [show utf8Step (some (acc, some (0xE0 + c.toNat / 0x1000 - 0xE0, 2,
              lead3lo (0xE0 + c.toNat / 0x1000), lead3hi (0xE0 + c.toNat / 0x1000))))
              (0x80 + c.toNat / 0x40 % 0x40) =
            some (acc, some ((0xE0 + c.toNat / 0x1000 - 0xE0) * 0x40 +
              (0x80 + c.toNat / 0x40 % 0x40 - 0x80), 1, 0x80, 0xBF)) by
          simp only [utf8Step, lead3lo, lead3hi]
          rw [if_pos (by split_ifs <;> omega)]
          rw [if_neg (by omega)]]
        rw [show utf8Step (some (acc, some ((0xE0 + c.toNat / 0x1000 - 0xE0) * 0x40 +
              (0x80 + c.toNat / 0x40 % 0x40 - 0x80), 1, 0x80, 0xBF)))
              (0x80 + c.toNat % 0x40) =
            some (acc ++ [Char.ofNat (((0xE0 + c.toNat / 0x1000 - 0xE0) * 0x40 +
              (0x80 + c.toNat / 0x40 % 0x40 - 0x80)) * 0x40 +
              (0x80 + c.toNat % 0x40 - 0x80))], none) by
          simp only [utf8Step]
          rw [if_pos (by omega), if_pos trivial]]
        rw [show ((0xE0 + c.toNat / 0x1000 - 0xE0) * 0x40 +
            (0x80 + c.toNat / 0x40 % 0x40 - 0x80)) * 0x40 +
            (0x80 + c.toNat % 0x40 - 0x80) = c.toNat from by omega]
        rw [char_ofNat_toNat]
      · simp only [utf8EncodeChar, if_neg h1, if_neg h2, if_neg h3, List.foldl_cons,
          List.foldl_nil]
        rw [show utf8Step (some (acc, none)) (0xF0 + c.toNat / 0x40000) =
            some (acc, some (0xF0 + c.toNat / 0x40000 - 0xF0, 3,
              lead4lo (0xF0 + c.toNat / 0x40000), lead4hi (0xF0 + c.toNat / 0x40000))) by
          simp only [utf8Step]
          rw [if_neg (by omega), if_neg (by omega), if_neg (by omega), if_pos (by omega)]]
        rw [show utf8Step (some (acc, some (0xF0 + c.toNat / 0x40000 - 0xF0, 3,
              lead4lo (0xF0 + c.toNat / 0x40000), lead4hi (0xF0 + c.toNat / 0x40000))))
              (0x80 + c.toNat / 0x1000 % 0x40) =
            some (acc, some ((0xF0 + c.toNat / 0x40000 - 0xF0) * 0x40 +
              (0x80 + c.toNat / 0x1000 % 0x40 - 0x80), 2, 0x80, 0xBF)) by
          simp only [utf8Step, lead4lo, lead4hi]
          rw [if_pos (by split_ifs <;> omega)]
          rw [if_neg (by omega)]]
        rw [show utf8Step (some (acc, some ((0xF0 + c.toNat / 0x40000 - 0xF0) * 0x40 +
              (0x80 + c.toNat / 0x1000 % 0x40 - 0x80), 2, 0x80, 0xBF)))
              (0x80 + c.toNat / 0x40 % 0x40) =
            some (acc, some (((0xF0 + c.toNat / 0x40000 - 0xF0) * 0x40 +
              (0x80 + c.toNat / 0x1000 % 0x40 - 0x80)) * 0x40 +
              (0x80 + c.toNat / 0x40 % 0x40 - 0x80), 1, 0x80, 0xBF)) by
          simp only [utf8Step]
          rw [if_pos (by omega), if_neg (by omega)]]
        rw [show utf8Step (some (acc, some (((0xF0 + c.toNat / 0x40000 - 0xF0) * 0x40 +
              (0x80 + c.toNat / 0x1000 % 0x40 - 0x80)) * 0x40 +
              (0x80 + c.toNat / 0x40 % 0x40 - 0x80), 1, 0x80, 0xBF)))
              (0x80 + c.toNat % 0x40) =
            some (acc ++ [Char.ofNat ((((0xF0 + c.toNat / 0x40000 - 0xF0) * 0x40 +
              (0x80 + c.toNat / 0x1000 % 0x40 - 0x80)) * 0x40 +
              (0x80 + c.toNat / 0x40 % 0x40 - 0x80)) * 0x40 +
              (0x80 + c.toNat % 0x40 - 0x80))], none) by
          simp only [utf8Step]
          rw [if_pos (by omega), if_pos trivial]]
        rw [show (((0xF0 + c.toNat / 0x40000 - 0xF0) * 0x40 +
            (0x80 + c.toNat / 0x1000 % 0x40 - 0x80)) * 0x40 +
            (0x80 + c.toNat / 0x40 % 0x40 - 0x80)) * 0x40 +
            (0x80 + c.toNat % 0x40 - 0x80) = c.toNat from by omega]
        rw [char_ofNat_toNat]

theorem utf8_foldl_encode : ∀ (cs : List Char) (acc : List Char),
    List.foldl utf8Step (some (acc, none)) (utf8Encode cs) =
      some (acc ++ cs, none)
  | [], acc => by simp [utf8Encode]
  | c :: cs, acc => by
    rw [utf8Encode, List.foldl_append, utf8Step_encodeChar,
      utf8_foldl_encode cs (acc ++ [c])]
    simp

theorem decodeUtf8_encode (cs : List Char) :
    decodeUtf8 (utf8Encode cs) = some cs := by
  rw [decodeUtf8, utf8_foldl_encode cs []]
  simp

theorem utf8_fold_inv : ∀ (n : Nat) (bs : List Nat), bs.length ≤ n →
    ∀ (acc res : List Char),
    List.foldl utf8Step (some (acc, none)) bs = some (res, none) →
    ∃ cs, res = acc ++ cs ∧ utf8Encode cs = bs := by
  intro n
  induction n with
  | zero =>
    intro bs hlen acc res h
    have hbs : bs = [] := List.length_eq_zero.mp (by omega)
    subst hbs
    exact ⟨[], by simpa using h.symm, rfl⟩
  | succ n ih =>
    intro bs hlen acc res h
    match bs with
    | [] =>
      exact ⟨[], by simpa using h.symm, rfl⟩
    | b0 :: rest =>
      rw [List.foldl_cons] at h
      by_cases h1 : b0 < 0x80
      · rw [show utf8Step (some (acc, none)) b0 =
            some (acc ++ [Char.ofNat b0], none) by
          simp only [utf8Step]
          rw [if_pos h1]] at h
        obtain ⟨cs', hres, henc⟩ :=
          ih rest (by simpa using hlen) (acc ++ [Char.ofNat b0]) res h
        refine ⟨Char.ofNat b0 :: cs', by simp [hres], ?_⟩
        rw [utf8Encode, henc, utf8EncodeChar,
          char_toNat_ofNat (Or.inl (by omega)), if_pos h1]
        rfl
      · by_cases h2 : 0xC2 ≤ b0 ∧ b0 ≤ 0xDF
        · rw [show utf8Step (some (acc, none)) b0 =
              some (acc, some (b0 - 0xC0, 1, 0x80, 0xBF)) by
            simp only [utf8Step]
            rw [if_neg h1, if_pos h2]] at h
          match rest with
          | [] => simp at h
          | b1 :: rest2 =>
            rw [List.foldl_cons] at h
            by_cases hc : 0x80 ≤ b1 ∧ b1 ≤ 0xBF
            · rw [show utf8Step (some (acc, some (b0 - 0xC0, 1, 0x80, 0xBF))) b1 =
                  some (acc ++ [Char.ofNat ((b0 - 0xC0) * 0x40 + (b1 - 0x80))], none) by
                simp only [utf8Step]
                rw [if_pos hc, if_pos trivial]] at h
              obtain ⟨cs', hres, henc⟩ := ih rest2 (by simp at hlen ⊢; omega) _ res h
              refine ⟨Char.ofNat ((b0 - 0xC0) * 0x40 + (b1 - 0x80)) :: cs',
                by simp [hres], ?_⟩
              rw [utf8Encode, henc, utf8EncodeChar,
                char_toNat_ofNat (Or.inl (by omega))]
              rw [if_neg (by omega), if_pos (by omega)]
              have e1 : 0xC0 + ((b0 - 0xC0) * 0x40 + (b1 - 0x80)) / 0x40 = b0 := by omega
              have e2 : 0x80 + ((b0 - 0xC0) * 0x40 + (b1 - 0x80)) % 0x40 = b1 := by omega
              rw [e1, e2]
              rfl
            · rw [show utf8Step (some (acc, some (b0 - 0xC0, 1, 0x80, 0xBF))) b1 = none by
                simp only [utf8Step]
                rw [if_neg hc]] at h
              rw [utf8_foldl_none] at h
              simp at h
        · by_cases h3 : 0xE0 ≤ b0 ∧ b0 ≤ 0xEF
          · rw [show utf8Step (some (acc, none)) b0 =
                some (acc, some (b0 - 0xE0, 2, lead3lo b0, lead3hi b0)) by
              simp only [utf8Step]
              rw [if_neg h1, if_neg h2, if_pos h3]] at h
            match rest with
            | [] => simp at h
            | [b1] =>
              rw [List.foldl_cons] at h
              by_cases hc1 : lead3lo b0 ≤ b1 ∧ b1 ≤ lead3hi b0
              · rw [show utf8Step (some (acc, some (b0 - 0xE0, 2, lead3lo b0, lead3hi b0))) b1 =
                    some (acc, some ((b0 - 0xE0) * 0x40 + (b1 - 0x80), 1, 0x80, 0xBF)) by
                  simp only [utf8Step]
                  rw [if_pos hc1, if_neg (by omega)]] at h
                simp at h
              · rw [show utf8Step (some (acc, some (b0 - 0xE0, 2, lead3lo b0, lead3hi b0))) b1 = none by
                  simp only [utf8Step]
                  rw [if_neg hc1]] at h
                rw [utf8_foldl_none] at h
                simp at h
            | b1 :: b2 :: rest3 =>
              rw [List.foldl_cons] at h
              by_cases hc1 : lead3lo b0 ≤ b1 ∧ b1 ≤ lead3hi b0
              · rw [show utf8Step (some (acc, some (b0 - 0xE0, 2, lead3lo b0, lead3hi b0))) b1 =
                    some (acc, some ((b0 - 0xE0) * 0x40 + (b1 - 0x80), 1, 0x80, 0xBF)) by
                  simp only [utf8Step]
                  rw [if_pos hc1, if_neg (by omega)]] at h
                rw [List.foldl_cons] at h
                by_cases hc2 : 0x80 ≤ b2 ∧ b2 ≤ 0xBF
                · rw [show utf8Step (some (acc, some ((b0 - 0xE0) * 0x40 + (b1 - 0x80), 1, 0x80, 0xBF))) b2 =
                      some (acc ++ [Char.ofNat (((b0 - 0xE0) * 0x40 + (b1 - 0x80)) * 0x40 + (b2 - 0x80))], none) by
                    simp only [utf8Step]
                    rw [if_pos hc2, if_pos trivial]] at h
                  obtain ⟨cs', hres, henc⟩ := ih rest3 (by simp at hlen ⊢; omega) _ res h
                  have hlo3 : 0x80 ≤ lead3lo b0 := by unfold lead3lo; split_ifs <;> omega
                  have hhi3 : lead3hi b0 ≤ 0xBF := by unfold lead3hi; split_ifs <;> omega
                  have hb1lo : 0x80 ≤ b1 := by have := hc1.1; omega
                  have hb1hi : b1 ≤ 0xBF := by have := hc1.2; omega
                  have hge : 0x800 ≤ ((b0 - 0xE0) * 0x40 + (b1 - 0x80)) * 0x40 + (b2 - 0x80) := by
                    by_cases hE : b0 = 0xE0
                    · have := hc1.1
                      rw [hE] at this
                      simp [lead3lo] at this
                      omega
                    · omega
                  have hval : (((b0 - 0xE0) * 0x40 + (b1 - 0x80)) * 0x40 + (b2 - 0x80)).isValidChar := by
                    by_cases hD : b0 = 0xED
                    · have := hc1.2
                      rw [hD] at this
                      simp [lead3hi] at this
                      exact Or.inl (by omega)
                    · by_cases hlt : ((b0 - 0xE0) * 0x40 + (b1 - 0x80)) * 0x40 + (b2 - 0x80) < 0xD800
                      · exact Or.inl hlt
                      · exact Or.inr ⟨by omega, by omega⟩
                  refine ⟨Char.ofNat (((b0 - 0xE0) * 0x40 + (b1 - 0x80)) * 0x40 + (b2 - 0x80)) :: cs',
                    by simp [hres], ?_⟩
                  rw [utf8Encode, henc, utf8EncodeChar, char_toNat_ofNat hval]
                  rw [if_neg (by omega), if_neg (by omega), if_pos (by omega)]
                  have e1 : 0xE0 + (((b0 - 0xE0) * 0x40 + (b1 - 0x80)) * 0x40 + (b2 - 0x80)) / 0x1000 = b0 := by omega
                  have e2 : 0x80 + (((b0 - 0xE0) * 0x40 + (b1 - 0x80)) * 0x40 + (b2 - 0x80)) / 0x40 % 0x40 = b1 := by omega
                  have e3 : 0x80 + (((b0 - 0xE0) * 0x40 + (b1 - 0x80)) * 0x40 + (b2 - 0x80)) % 0x40 = b2 := by omega
                  rw [e1, e2, e3]
                  rfl
                · rw [show utf8Step (some (acc, some ((b0 - 0xE0) * 0x40 + (b1 - 0x80), 1, 0x80, 0xBF))) b2 = none by
                    simp only [utf8Step]
                    rw [if_neg hc2]] at h
                  rw [utf8_foldl_none] at h
                  simp at h
              · rw [show utf8Step (some (acc, some (b0 - 0xE0, 2, lead3lo b0, lead3hi b0))) b1 = none by
                  simp only [utf8Step]
                  rw [if_neg hc1]] at h
                rw [utf8_foldl_none] at h
                simp at h
          · by_cases h4 : 0xF0 ≤ b0 ∧ b0 ≤ 0xF4
            · rw [show utf8Step (some (acc, none)) b0 =
                  some (acc, some (b0 - 0xF0, 3, lead4lo b0, lead4hi b0)) by
                simp only [utf8Step]
                rw [if_neg h1, if_neg h2, if_neg h3, if_pos h4]] at h
              match rest with
              | [] => simp at h
              | [b1] =>
                rw [List.foldl_cons] at h
                by_cases hc1 : lead4lo b0 ≤ b1 ∧ b1 ≤ lead4hi b0
                · rw [show utf8Step (some (acc, some (b0 - 0xF0, 3, lead4lo b0, lead4hi b0))) b1 =
                      some (acc, some ((b0 - 0xF0) * 0x40 + (b1 - 0x80), 2, 0x80, 0xBF)) by
                    simp only [utf8Step]
                    rw [if_pos hc1, if_neg (by omega)]] at h
                  simp at h
                · rw [show utf8Step (some (acc, some (b0 - 0xF0, 3, lead4lo b0, lead4hi b0))) b1 = none by
                    simp only [utf8Step]
                    rw [if_neg hc1]] at h
                  rw [utf8_foldl_none] at h
                  simp at h
              | [b1, b2] =>
                rw [List.foldl_cons] at h
                by_cases hc1 : lead4lo b0 ≤ b1 ∧ b1 ≤ lead4hi b0
                · rw [show utf8Step (some (acc, some (b0 - 0xF0, 3, lead4lo b0, lead4hi b0))) b1 =
                      some (acc, some ((b0 - 0xF0) * 0x40 + (b1 - 0x80), 2, 0x80, 0xBF)) by
                    simp only [utf8Step]
                    rw [if_pos hc1, if_neg (by omega)]] at h
                  rw [List.foldl_cons] at h
                  by_cases hc2 : 0x80 ≤ b2 ∧ b2 ≤ 0xBF
                  · rw [show utf8Step (some (acc, some ((b0 - 0xF0) * 0x40 + (b1 - 0x80), 2, 0x80, 0xBF))) b2 =
                        some (acc, some (((b0 - 0xF0) * 0x40 + (b1 - 0x80)) * 0x40 + (b2 - 0x80), 1, 0x80, 0xBF)) by
                      simp only [utf8Step]
                      rw [if_pos hc2, if_neg (by omega)]] at h
                    simp at h
                  · rw [show utf8Step (some (acc, some ((b0 - 0xF0) * 0x40 + (b1 - 0x80), 2, 0x80, 0xBF))) b2 = none by
                      simp only [utf8Step]
                      rw [if_neg hc2]] at h
                    rw [utf8_foldl_none] at h
                    simp at h
                · rw [show utf8Step (some (acc, some (b0 - 0xF0, 3, lead4lo b0, lead4hi b0))) b1 = none by
                    simp only [utf8Step]
                    rw [if_neg hc1]] at h
                  rw [utf8_foldl_none] at h
                  simp at h
              | b1 :: b2 :: b3 :: rest4 =>
                rw [List.foldl_cons] at h
                by_cases hc1 : lead4lo b0 ≤ b1 ∧ b1 ≤ lead4hi b0
                · rw [show utf8Step (some (acc, some (b0 - 0xF0, 3, lead4lo b0, lead4hi b0))) b1 =
                      some (acc, some ((b0 - 0xF0) * 0x40 + (b1 - 0x80), 2, 0x80, 0xBF)) by
                    simp only [utf8Step]
                    rw [if_pos hc1, if_neg (by omega)]] at h
                  rw [List.foldl_cons] at h
                  by_cases hc2 : 0x80 ≤ b2 ∧ b2 ≤ 0xBF
                  · rw [show utf8Step (some (acc, some ((b0 - 0xF0) * 0x40 + (b1 - 0x80), 2, 0x80, 0xBF))) b2 =
                        some (acc, some (((b0 - 0xF0) * 0x40 + (b1 - 0x80)) * 0x40 + (b2 - 0x80), 1, 0x80, 0xBF)) by
                      simp only [utf8Step]
                      rw [if_pos hc2, if_neg (by omega)]] at h
                    rw [List.foldl_cons] at h
                    by_cases hc3 : 0x80 ≤ b3 ∧ b3 ≤ 0xBF
                    · rw [show utf8Step (some (acc, some (((b0 - 0xF0) * 0x40 + (b1 - 0x80)) * 0x40 + (b2 - 0x80), 1, 0x80, 0xBF))) b3 =
                          some (acc ++ [Char.ofNat ((((b0 - 0xF0) * 0x40 + (b1 - 0x80)) * 0x40 + (b2 - 0x80)) * 0x40 + (b3 - 0x80))], none) by
                        simp only [utf8Step]
                        rw [if_pos hc3, if_pos trivial]] at h
                      obtain ⟨cs', hres, henc⟩ := ih rest4 (by simp at hlen ⊢; omega) _ res h
                      have hlo4 : 0x80 ≤ lead4lo b0 := by unfold lead4lo; split_ifs <;> omega
                      have hhi4 : lead4hi b0 ≤ 0xBF := by unfold lead4hi; split_ifs <;> omega
                      have hb1lo : 0x80 ≤ b1 := by have := hc1.1; omega
                      have hb1hi : b1 ≤ 0xBF := by have := hc1.2; omega
                      have hge : 0x10000 ≤ (((b0 - 0xF0) * 0x40 + (b1 - 0x80)) * 0x40 + (b2 - 0x80)) * 0x40 + (b3 - 0x80) := by
                        by_cases hF : b0 = 0xF0
                        · have := hc1.1
                          rw [hF] at this
                          simp [lead4lo] at this
                          omega
                        · omega
                      have hlt : (((b0 - 0xF0) * 0x40 + (b1 - 0x80)) * 0x40 + (b2 - 0x80)) * 0x40 + (b3 - 0x80) < 0x110000 := by
                        by_cases hF : b0 = 0xF4
                        · have := hc1.2
                          rw [hF] at this
                          simp [lead4hi] at this
                          omega
                        · omega
                      have hval : ((((b0 - 0xF0) * 0x40 + (b1 - 0x80)) * 0x40 + (b2 - 0x80)) * 0x40 + (b3 - 0x80)).isValidChar :=
                        Or.inr ⟨by omega, hlt⟩
                      refine ⟨Char.ofNat ((((b0 - 0xF0) * 0x40 + (b1 - 0x80)) * 0x40 + (b2 - 0x80)) * 0x40 + (b3 - 0x80)) :: cs',
                        by simp [hres], ?_⟩
                      rw [utf8Encode, henc, utf8EncodeChar, char_toNat_ofNat hval]
                      rw [if_neg (by omega), if_neg (by omega), if_neg (by omega)]
                      have e1 : 0xF0 + ((((b0 - 0xF0) * 0x40 + (b1 - 0x80)) * 0x40 + (b2 - 0x80)) * 0x40 + (b3 - 0x80)) / 0x40000 = b0 := by omega
                      have e2 : 0x80 + ((((b0 - 0xF0) * 0x40 + (b1 - 0x80)) * 0x40 + (b2 - 0x80)) * 0x40 + (b3 - 0x80)) / 0x1000 % 0x40 = b1 := by omega
                      have e3 : 0x80 + ((((b0 - 0xF0) * 0x40 + (b1 - 0x80)) * 0x40 + (b2 - 0x80)) * 0x40 + (b3 - 0x80)) / 0x40 % 0x40 = b2 := by omega
                      have e4 : 0x80 + ((((b0 - 0xF0) * 0x40 + (b1 - 0x80)) * 0x40 + (b2 - 0x80)) * 0x40 + (b3 - 0x80)) % 0x40 = b3 := by omega
                      rw [e1, e2, e3, e4]
                      rfl
                    · rw [show utf8Step (some (acc, some (((b0 - 0xF0) * 0x40 + (b1 - 0x80)) * 0x40 + (b2 - 0x80), 1, 0x80, 0xBF))) b3 = none by
                        simp only [utf8Step]
                        rw [if_neg hc3]] at h
                      rw [utf8_foldl_none] at h
                      simp at h
                  · rw [show utf8Step (some (acc, some ((b0 - 0xF0) * 0x40 + (b1 - 0x80), 2, 0x80, 0xBF))) b2 = none by
                      simp only [utf8Step]
                      rw [if_neg hc2]] at h
                    rw [utf8_foldl_none] at h
                    simp at h
                · rw [show utf8Step (some (acc, some (b0 - 0xF0, 3, lead4lo b0, lead4hi b0))) b1 = none by
                    simp only [utf8Step]
                    rw [if_neg hc1]] at h
                  rw [utf8_foldl_none] at h
                  simp at h
            · rw [show utf8Step (some (acc, none)) b0 = none by
                simp only [utf8Step]
                rw [if_neg h1, if_neg h2, if_neg h3, if_neg h4]] at h
              rw [utf8_foldl_none] at h
              simp at h

theorem utf8Encode_of_decode (bs : List Nat) (cs : List Char)
    (h : decodeUtf8 bs = some cs) : utf8Encode cs = bs := by
  cases hst : List.foldl utf8Step (some ([], none)) bs with
  | none => simp [decodeUtf8, hst] at h
  | some st =>
    obtain ⟨acc, pend⟩ := st
    cases pend with
    | none =>
      simp only [decodeUtf8, hst] at h
      obtain ⟨cs', hres, henc⟩ :=
        utf8_fold_inv bs.length bs le_rfl [] acc hst
      simp only [List.nil_append] at hres
      rw [← Option.some.inj h, hres, henc]
    | some p => simp [decodeUtf8, hst] at h

theorem decodeUtf8_none_iff (bs : List Nat) :
    decodeUtf8 bs = none ↔ ¬ ∃ cs, utf8Encode cs = bs := by
  constructor
  · rintro hn ⟨cs, henc⟩
    rw [← henc, decodeUtf8_encode] at hn
    cases hn
  · intro hne
    cases hd : decodeUtf8 bs with
    | none => rfl
    | some cs => exact absurd ⟨cs, utf8Encode_of_decode bs cs hd⟩ hne

/-! ## Claims -/

/-- **C9**: when none of the four metric booleans of the CLI selection is
set, the derived `Options` is bytes=true, words=true, lines=true,
chars=false (show-totals passing through); when at least one is set, the
four booleans pass through unchanged.  The substitution is a pure function
of the `Cli` value, applied once in `main` before `run` does any counting. -/
theorem c9_default_metric_substitution (cli : Cli) :
    optionsFromCli cli =
      if cli.bytes || cli.chars || cli.words || cli.lines then
        { bytes := cli.bytes, chars := cli.chars, words := cli.words,
          lines := cli.lines, show_totals := cli.show_totals }
      else
        { bytes := true, chars := false, words := true, lines := true,
          show_totals := cli.show_totals } := by
  unfold optionsFromCli
  cases h : (cli.bytes || cli.chars || cli.words || cli.lines) <;> simp [h]

/-- **C10**: counting an already-open stream with only bytes requested
still runs the byte-scan words+lines strategy: the stream dispatcher
ignores the bytes flag and has no bytes-only branch, so the result has
bytes, words and lines present and chars absent. -/
theorem c10_stream_bytes_only_still_scans_words_lines (bs : List Nat) :
    count_readable bs true false false false = .ok (count_bytes_words_lines bs) ∧
    (count_bytes_words_lines bs).bytes.val = some bs.length ∧
    (count_bytes_words_lines bs).words.val.isSome = true ∧
    (count_bytes_words_lines bs).lines.val.isSome = true ∧
    (count_bytes_words_lines bs).chars.val = none :=
  ⟨rfl, rfl, rfl, rfl, rfl⟩

/-- **C7**: with no explicit inputs and no path-list file, `run` counts
exactly the standard-input stream, labels the single result entry
"Stdin", and forces show-totals to true. -/
theorem c7_stdin_fallback (opts : Options) (input : List Nat) (fs : FS) :
    run opts none [] input fs =
      .ok ([(count_readable input opts.bytes opts.chars opts.words opts.lines,
             "Stdin")],
        { opts with show_totals := true }) := rfl

/-- **C4**: for a path-like input with only bytes requested, counting is a
pure metadata length lookup: it equals `count_bytes`, returns
bytes=present(size) with the other three metrics absent, fails exactly
when the path cannot be stat'ed, and never consults the file contents
(the result is invariant under changing the content map). -/
theorem c4_bytes_only_is_metadata_lookup (fs : FS) (path : String) :
    countPath fs path true false false false = count_bytes fs path ∧
    (∀ n, fs.statLen path = some n →
      countPath fs path true false false false =
        .ok ⟨⟨some n⟩, ⟨none⟩, ⟨none⟩, ⟨none⟩⟩) ∧
    (fs.statLen path = none →
      countPath fs path true false false false = .error .ioError) ∧
    (∀ fs2 : FS, fs2.statLen = fs.statLen →
      countPath fs2 path true false false false =
        countPath fs path true false false false) := by
  refine ⟨rfl, ?_, ?_, ?_⟩
  · intro n h
    simp [countPath, count_bytes, h]
  · intro h
    simp [countPath, count_bytes, h]
  · intro fs2 h
    simp [countPath, count_bytes, h]

/-- Witness for C4 at a concrete one-file file system. -/
theorem c4_witness :
    countPath fs1 "a" true false false false =
      .ok ⟨⟨some 3⟩, ⟨none⟩, ⟨none⟩, ⟨none⟩⟩ ∧
    countPath fs1 "b" true false false false = .error .ioError ∧
    countPath fs2 "a" true false false false =
      countPath fs1 "a" true false false false :=
  ⟨(c4_bytes_only_is_metadata_lookup fs1 "a").2.1 3 rfl,
   (c4_bytes_only_is_metadata_lookup fs1 "b").2.2.1 rfl,
   (c4_bytes_only_is_metadata_lookup fs1 "a").2.2.2 fs2 rfl⟩

/-! ## Sorting infrastructure -/

theorem lexLe_total : ∀ xs ys : List Char, lexLe xs ys = true ∨ lexLe ys xs = true
  | [], _ => Or.inl rfl
  | _ :: _, [] => Or.inr rfl
  | a :: xs, b :: ys => by
    by_cases hab : a.toNat < b.toNat
    · left
      simp [lexLe, hab]
    · by_cases hba : b.toNat < a.toNat
      · right
        simp [lexLe, hba]
      · rcases lexLe_total xs ys with h | h
        · left
          simp [lexLe, hab, hba, h]
        · right
          simp [lexLe, hab, hba, h]

theorem lexLe_trans : ∀ xs ys zs : List Char,
    lexLe xs ys = true → lexLe ys zs = true → lexLe xs zs = true
  | [], _, _, _, _ => rfl
  | _ :: _, [], _, h1, _ => by simp [lexLe] at h1
  | _ :: _, _ :: _, [], _, h2 => by simp [lexLe] at h2
  | a :: xs, b :: ys, c :: zs, h1, h2 => by
    simp only [lexLe] at h1 h2 ⊢
    by_cases hab : a.toNat < b.toNat <;> by_cases hbc : b.toNat < c.toNat
    · rw [if_pos (show a.toNat < c.toNat by omega)]
    · rw [if_neg hbc] at h2
      by_cases hcb : c.toNat < b.toNat
      · rw [if_pos hcb] at h2
        exact absurd h2 (by simp)
      · rw [if_pos (show a.toNat < c.toNat by omega)]
    · rw [if_neg hab] at h1
      by_cases hba : b.toNat < a.toNat
      · rw [if_pos hba] at h1
        exact absurd h1 (by simp)
      · rw [if_pos (show a.toNat < c.toNat by omega)]
    · rw [if_neg hab] at h1
      rw [if_neg hbc] at h2
      by_cases hba : b.toNat < a.toNat
      · rw [if_pos hba] at h1
        exact absurd h1 (by simp)
      · by_cases hcb : c.toNat < b.toNat
        · rw [if_pos hcb] at h2
          exact absurd h2 (by simp)
        · rw [if_neg hba] at h1
          rw [if_neg hcb] at h2
          rw [if_neg (show ¬ a.toNat < c.toNat by omega),
              if_neg (show ¬ c.toNat < a.toNat by omega)]
          exact lexLe_trans xs ys zs h1 h2

instance : IsTotal (Except Error Counts × String) pathLe :=
  ⟨fun a b => lexLe_total a.2.data b.2.data⟩

instance : IsTrans (Except Error Counts × String) pathLe :=
  ⟨fun _ _ _ h1 h2 => lexLe_trans _ _ _ h1 h2⟩

/-- **C2**: with explicit input paths, the batch orchestrator produces
exactly one result entry per input (the result list has the inputs'
length and contains, for every input path, the entry obtained by counting
that path alone — so a failure on one input leaves every other input's
entry intact), the batch as a whole succeeds, and the final list is
sorted by path identifier in ascending order. -/
theorem c2_batch_isolation_and_sorted (fs : FS) (files : List String)
    (opts : Options) (input : List Nat) (h : files ≠ []) :
    run opts none files input fs =
      .ok (sortByPath (count_paths fs files opts), opts) ∧
    (sortByPath (count_paths fs files opts)).length = files.length ∧
    (∀ p ∈ files,
      (countPath fs p opts.bytes opts.chars opts.words opts.lines, p) ∈
        sortByPath (count_paths fs files opts)) ∧
    List.Sorted pathLe (sortByPath (count_paths fs files opts)) := by
  refine ⟨?_, ?_, ?_, ?_⟩
  · have hlen : files.length > 0 := List.length_pos.mpr h
    simp [run, hlen]
  · have hperm := List.perm_insertionSort pathLe (count_paths fs files opts)
    calc (sortByPath (count_paths fs files opts)).length
        = (count_paths fs files opts).length := hperm.length_eq
      _ = files.length := by simp [count_paths]
  · intro p hp
    have hmem :
        (countPath fs p opts.bytes opts.chars opts.words opts.lines, p) ∈
          count_paths fs files opts :=
      List.mem_map_of_mem _ hp
    exact ((List.perm_insertionSort pathLe _).mem_iff).mpr hmem
  · exact List.sorted_insertionSort pathLe _

/-- Witness for C2: two inputs, one readable and one missing; the batch
succeeds with two entries, each input keeps its own result, sorted. -/
theorem c2_witness :
    run opts1 none ["b", "a"] [] fs1 =
      .ok (sortByPath (count_paths fs1 ["b", "a"] opts1), opts1) ∧
    (sortByPath (count_paths fs1 ["b", "a"] opts1)).length = 2 ∧
    (countPath fs1 "a" opts1.bytes opts1.chars opts1.words opts1.lines, "a") ∈
      sortByPath (count_paths fs1 ["b", "a"] opts1) ∧
    (countPath fs1 "b" opts1.bytes opts1.chars opts1.words opts1.lines, "b") ∈
      sortByPath (count_paths fs1 ["b", "a"] opts1) ∧
    List.Sorted pathLe (sortByPath (count_paths fs1 ["b", "a"] opts1)) := by
  have h := c2_batch_isolation_and_sorted fs1 ["b", "a"] opts1 [] (by simp)
  exact ⟨h.1, h.2.1, h.2.2.1 "a" (by simp), h.2.2.1 "b" (by simp), h.2.2.2⟩

/-- **C3**: whenever chars is requested — through the stream dispatcher or
through a path — the decode-count strategy runs regardless of the other
flags; on a byte stream that is valid UTF-8 (the encoding of some
scalar-value sequence) it returns all four metrics present, and it fails
with the UTF-8 decoding error exactly when the stream is not valid UTF-8
(strict decoding, no replacement characters). -/
theorem c3_decode_count_strictness (bs : List Nat) (b w l : Bool) :
    count_readable bs b true w l = count_bytes_chars_words_lines bs ∧
    (∀ fs path content, fs.content path = some content →
      countPath fs path b true w l = count_bytes_chars_words_lines content) ∧
    ((∃ cs, utf8Encode cs = bs) →
      ∃ c, count_bytes_chars_words_lines bs = .ok c ∧
        c.bytes.val.isSome = true ∧ c.chars.val.isSome = true ∧
        c.words.val.isSome = true ∧ c.lines.val.isSome = true) ∧
    (count_bytes_chars_words_lines bs = .error .utf8Error ↔
      ¬ ∃ cs, utf8Encode cs = bs) := by
  refine ⟨rfl, ?_, ?_, ?_⟩
  · intro fs path content hc
    simp [countPath, hc, count_readable]
  · rintro ⟨cs, henc⟩
    have hdec : decodeUtf8 bs = some cs := by
      rw [← henc, decodeUtf8_encode]
    simp only [count_bytes_chars_words_lines, hdec]
    exact ⟨_, rfl, rfl, rfl, rfl, rfl⟩
  · constructor
    · intro h
      rw [← decodeUtf8_none_iff]
      cases hdec : decodeUtf8 bs with
      | none => rfl
      | some cs => simp [count_bytes_chars_words_lines, hdec] at h
    · intro h
      have hn := (decodeUtf8_none_iff bs).mpr h
      simp [count_bytes_chars_words_lines, hn]

/-- Witness for C3: a path input with chars requested delegates to the
decode-count strategy; a valid one-byte stream counts fine; the lone byte
0xFF fails with the UTF-8 error. -/
theorem c3_witness :
    countPath fs1 "a" true true true true =
      count_bytes_chars_words_lines [0x68, 0x69, 0x0A] ∧
    (count_bytes_chars_words_lines [0x68]).isOk = true ∧
    count_bytes_chars_words_lines [0xFF] = .error .utf8Error := by
  refine ⟨?_, ?_, ?_⟩
  · exact (c3_decode_count_strictness [] true true true).2.1 fs1 "a" _ rfl
  · obtain ⟨c, hc, -⟩ :=
      (c3_decode_count_strictness [0x68] true true true).2.2.1 ⟨['h'], by decide⟩
    rw [hc]
    rfl
  · exact ((c3_decode_count_strictness [0xFF] true true true).2.2.2).mpr
      ((decodeUtf8_none_iff [0xFF]).mp (by decide))

/-- **C5**: on any byte stream where they succeed, all scan strategies
agree on the bytes metric, which equals the total byte length of the
content; the length-lookup strategy agrees whenever the stat size is
consistent with the content (file-backed content). -/
theorem c5_bytes_metric_agreement (bs : List Nat) :
    (count_bytes_words_lines bs).bytes.val = some bs.length ∧
    (count_bytes_lines bs).bytes.val = some bs.length ∧
    (∀ c, count_bytes_chars_words_lines bs = .ok c →
      c.bytes.val = some bs.length) ∧
    (∀ fs path, fs.content path = some bs →
      fs.statLen path = some bs.length →
      count_bytes fs path = .ok ⟨⟨some bs.length⟩, ⟨none⟩, ⟨none⟩, ⟨none⟩⟩) := by
  refine ⟨rfl, rfl, ?_, ?_⟩
  · intro c hc
    cases hdec : decodeUtf8 bs with
    | none => simp [count_bytes_chars_words_lines, hdec] at hc
    | some cs =>
      simp only [count_bytes_chars_words_lines, hdec] at hc
      have hb := Except.ok.inj hc
      rw [← hb]
      simp only []
      rw [utf8Encode_of_decode bs cs hdec]
  · intro fs path hc hs
    simp [count_bytes, hs]

/-- Witness for C5 at the content "hi\n" of fixture file "a". -/
theorem c5_witness :
    (count_bytes_words_lines [0x68, 0x69, 0x0A]).bytes.val = some 3 ∧
    (count_bytes_lines [0x68, 0x69, 0x0A]).bytes.val = some 3 ∧
    (⟨⟨some 3⟩, ⟨some 3⟩, ⟨some 1⟩, ⟨some 1⟩⟩ : Counts).bytes.val = some 3 ∧
    count_bytes fs1 "a" = .ok ⟨⟨some 3⟩, ⟨none⟩, ⟨none⟩, ⟨none⟩⟩ :=
  ⟨(c5_bytes_metric_agreement [0x68, 0x69, 0x0A]).1,
   (c5_bytes_metric_agreement [0x68, 0x69, 0x0A]).2.1,
   (c5_bytes_metric_agreement [0x68, 0x69, 0x0A]).2.2.1 _ rfl,
   (c5_bytes_metric_agreement [0x68, 0x69, 0x0A]).2.2.2 fs1 "a" rfl rfl⟩

/-- **C8**: the decode-count strategy on the UTF-8 encoding of the spec's
example text returns bytes=96, chars=48 (scalar values, not bytes),
words=8 (the final word, ending at end of stream with no trailing
whitespace, is counted), lines=1. -/
theorem c8_decode_count_example :
    count_bytes_chars_words_lines (utf8Encode c8Text.data) =
      .ok ⟨⟨some 96⟩, ⟨some 48⟩, ⟨some 8⟩, ⟨some 1⟩⟩ := by
  have hdec := decodeUtf8_encode c8Text.data
  simp only [count_bytes_chars_words_lines, hdec]
  rfl

/-- Characterisation of successful path-list ingestion: `read_paths0_from`
returns an ok list exactly when every item read cleanly and every segment
decoded cleanly, and then the list is the ordered decoding of all
segments — never a partial list. -/
theorem read_paths0_from_ok_iff (items : List (Except Unit (List Nat)))
    (l : List String) :
    read_paths0_from items = .ok l ↔
      (∀ it ∈ items, it.isOk = true) ∧
      (∀ it ∈ items, (string_from_utf8 (unwrapSeg it)).isOk = true) ∧
      l = items.map fun it => unwrapPath (string_from_utf8 (unwrapSeg it)) := by
  constructor
  · intro h
    simp only [read_paths0_from, List.partition_eq_filter_filter, Function.comp_def] at h
    by_cases h1 : (List.filter (fun a => !a.isOk) items) = []
    · rw [h1, if_neg (by simp)] at h
      have hall : ∀ it ∈ items, it.isOk = true := by
        intro it hit
        by_contra hno
        have : it ∈ List.filter (fun a => !a.isOk) items :=
          List.mem_filter.mpr ⟨hit, by simp [hno]⟩
        simp [h1] at this
      have hfs : (items.filter fun it => it.isOk) = items :=
        List.filter_eq_self.mpr hall
      rw [hfs] at h
      by_cases h2 :
          ((items.map fun it => string_from_utf8 (unwrapSeg it)).filter fun r => !r.isOk) = []
      · rw [show (List.filter (fun a => !a.isOk)
            (List.map (fun it => string_from_utf8 (unwrapSeg it)) items)) = [] from h2,
          if_neg (by simp)] at h
        have hall2 : ∀ r ∈ items.map fun it => string_from_utf8 (unwrapSeg it),
            r.isOk = true := by
          intro r hr
          by_contra hno
          have : r ∈ (items.map fun it => string_from_utf8 (unwrapSeg it)).filter
              fun a => !a.isOk :=
            List.mem_filter.mpr ⟨hr, by simp [hno]⟩
          simp [h2] at this
        have hfs2 : ((items.map fun it => string_from_utf8 (unwrapSeg it)).filter
            fun r => r.isOk) = items.map fun it => string_from_utf8 (unwrapSeg it) :=
          List.filter_eq_self.mpr hall2
        rw [hfs2] at h
        refine ⟨hall, ?_, ?_⟩
        · intro it hit
          exact hall2 _ (List.mem_map_of_mem _ hit)
        · have := Except.ok.inj h
          rw [← this, List.map_map]
          rfl
      · rw [if_pos (by simpa [List.length_pos] using h2)] at h
        simp at h
    · rw [if_pos (by simpa [List.length_pos] using h1)] at h
      simp at h
  · rintro ⟨hall, hall2, rfl⟩
    have hfe : (items.filter fun it => !it.isOk) = [] :=
      List.filter_eq_nil_iff.mpr (by intro a ha; simp [hall a ha])
    have hfs : (items.filter fun it => it.isOk) = items :=
      List.filter_eq_self.mpr hall
    have hfe2 : ((items.map fun it => string_from_utf8 (unwrapSeg it)).filter
        fun r => !r.isOk) = [] :=
      List.filter_eq_nil_iff.mpr (by
        intro a ha
        obtain ⟨it, hit, rfl⟩ := List.mem_map.mp ha
        simp [hall2 it hit])
    have hfs2 : ((items.map fun it => string_from_utf8 (unwrapSeg it)).filter
        fun r => r.isOk) = items.map fun it => string_from_utf8 (unwrapSeg it) :=
      List.filter_eq_self.mpr (by
        intro a ha
        obtain ⟨it, hit, rfl⟩ := List.mem_map.mp ha
        exact hall2 it hit)
    simp only [read_paths0_from, List.partition_eq_filter_filter, Function.comp_def]
    rw [show (List.filter (fun a => !a.isOk) items) = [] from hfe, if_neg (by simp)]
    rw [hfs]
    rw [show (List.filter (fun a => !a.isOk)
        (List.map (fun it => string_from_utf8 (unwrapSeg it)) items)) = [] from hfe2,
      if_neg (by simp)]
    rw [hfs2, List.map_map]
    rfl

/-- **C6**: ingestion never stops at the first failure: all read failures
are collected first into one combined multi-error; only if none exist are
all segments decoded, all decode failures again collected into one
combined multi-error; the ordered path list is returned exactly when every
item reads cleanly and every segment decodes cleanly — never a partial
list. -/
theorem c6_two_phase_error_collection (items : List (Except Unit (List Nat))) :
    ((items.filter fun it => !it.isOk) ≠ [] →
      read_paths0_from items =
        .error (.many ((items.filter fun it => !it.isOk).map fun _ => Error.ioError))) ∧
    ((∀ it ∈ items, it.isOk = true) →
      ((items.map fun it => string_from_utf8 (unwrapSeg it)).filter fun r => !r.isOk) ≠ [] →
      read_paths0_from items =
        .error (.many (((items.map fun it => string_from_utf8 (unwrapSeg it)).filter
          fun r => !r.isOk).map unwrapPathErr))) ∧
    (∀ l, read_paths0_from items = .ok l ↔
      (∀ it ∈ items, it.isOk = true) ∧
      (∀ it ∈ items, (string_from_utf8 (unwrapSeg it)).isOk = true) ∧
      l = items.map fun it => unwrapPath (string_from_utf8 (unwrapSeg it))) := by
  refine ⟨?_, ?_, fun l => read_paths0_from_ok_iff items l⟩
  · intro hne
    simp only [read_paths0_from, List.partition_eq_filter_filter, Function.comp_def]
    rw [if_pos (by simpa [List.length_pos] using hne)]
  · intro hall hne2
    have hfe : (items.filter fun it => !it.isOk) = [] :=
      List.filter_eq_nil_iff.mpr (by intro a ha; simp [hall a ha])
    have hfs : (items.filter fun it => it.isOk) = items :=
      List.filter_eq_self.mpr hall
    simp only [read_paths0_from, List.partition_eq_filter_filter, Function.comp_def]
    rw [show (List.filter (fun a => !a.isOk) items) = [] from hfe]
    rw [if_neg (by simp)]
    rw [hfs]
    rw [if_pos (by simpa [List.length_pos] using hne2)]

/-- Witness for C6: a read failure among good items yields the combined
error of all read failures; an invalid-UTF-8 segment among good items
yields the combined error of all decode failures; an all-clean stream
yields the full ordered list. -/
theorem c6_witness :
    read_paths0_from [.error (), .ok [0x61], .error ()] =
      .error (.many [.ioError, .ioError]) ∧
    read_paths0_from [.ok [0xFF], .ok [0x61]] =
      .error (.many [.pathError [0xFF]]) ∧
    read_paths0_from [.ok [0x61], .ok []] = .ok ["a", ""] := by
  refine ⟨?_, ?_, ?_⟩
  · exact (c6_two_phase_error_collection [.error (), .ok [0x61], .error ()]).1
      (fun h => List.noConfusion h)
  · exact (c6_two_phase_error_collection [.ok [0xFF], .ok [0x61]]).2.1
      (by decide) (fun h => List.noConfusion h)
  · exact ((c6_two_phase_error_collection [.ok [0x61], .ok []]).2.2 ["a", ""]).mpr
      ⟨by decide, by decide, by decide⟩

/-- Segment-wise decoding of a list of segments succeeds with `l` exactly
when every segment decodes cleanly and `l` is the ordered decoding. -/
theorem mapM_decode_eq_some_iff : ∀ (segs : List (List Nat)) (l : List String),
    segs.mapM (fun seg => (decodeUtf8 seg).map fun cs => (⟨cs⟩ : String)) = some l ↔
    ((∀ seg ∈ segs, (string_from_utf8 seg).isOk = true) ∧
      l = segs.map fun seg => unwrapPath (string_from_utf8 seg)) := by
  intro segs
  induction segs with
  | nil =>
    intro l
    rw [List.mapM_nil]
    constructor
    · intro h
      exact ⟨by simp, (Option.some.inj h).symm⟩
    · rintro ⟨-, rfl⟩
      rfl
  | cons seg segs ih =>
    intro l
    rw [List.mapM_cons]
    cases hdec : decodeUtf8 seg with
    | none =>
      simp only [hdec, Option.map_none', Option.none_bind]
      constructor
      · intro h
        exact absurd h (by simp)
      · rintro ⟨hall, -⟩
        have hh := hall seg (List.mem_cons_self seg segs)
        simp only [string_from_utf8, hdec] at hh
        exact Bool.noConfusion hh
    | some cs =>
      simp only [hdec, Option.map_some', Option.some_bind, bind, Option.bind_eq_some,
        pure, Option.some.injEq]
      constructor
      · rintro ⟨tail, htail, rfl⟩
        obtain ⟨hall, rfl⟩ := (ih tail).mp htail
        refine ⟨?_, ?_⟩
        · intro s hs
          rcases List.mem_cons.mp hs with rfl | hs2
          · simp only [string_from_utf8, hdec]
            rfl
          · exact hall s hs2
        · simp [string_from_utf8, hdec, unwrapPath]
      · rintro ⟨hall, rfl⟩
        refine ⟨segs.map fun s => unwrapPath (string_from_utf8 s),
          (ih _).mpr ⟨fun s hs => hall s (List.mem_cons_of_mem _ hs), rfl⟩, ?_⟩
        simp [string_from_utf8, hdec, unwrapPath]

/-- **C1 (counterexample)**: on the standard-input byte stream "a\nb",
path-list ingestion returns the single path "a\nb" — the stream is split
on NUL, not on newlines — while the newline-split segmentation of the same
stream decodes to the two paths ["a", "b"]. -/
theorem c1_counterexample :
    read_paths0_pure [0x61, 0x0A, 0x62] = .ok ["a\nb"] ∧
    (splitOnByte 0x0A [0x61, 0x0A, 0x62]).mapM
      (fun seg => (decodeUtf8 seg).map fun cs => (⟨cs⟩ : String)) =
      some ["a", "b"] ∧
    (["a\nb"] : List String) ≠ ["a", "b"] :=
  ⟨rfl, rfl, by decide⟩

/-- **C1 (amended)**: with the designator `-`, the path list is read from
standard input but split on the NUL byte exactly as a path-list file is:
ingestion returns `l` iff the NUL-split segmentation of the stream decodes
segment-wise as UTF-8 to `l`, and running with designator `-` on a stdin
stream behaves identically to running with a path-list file holding the
same bytes. -/
theorem c1_stdin_pathlist_nul_split (bs : List Nat) (l : List String) :
    (read_paths0_pure bs = .ok l ↔
      (splitOnByte 0 bs).mapM
        (fun seg => (decodeUtf8 seg).map fun cs => (⟨cs⟩ : String)) = some l) ∧
    (∀ opts fs p input, p ≠ "-" → fs.content p = some bs →
      run opts (some p) [] input fs = run opts (some "-") [] bs fs) := by
  constructor
  · rw [read_paths0_pure, read_paths0_from_ok_iff, mapM_decode_eq_some_iff]
    constructor
    · rintro ⟨-, hdec, rfl⟩
      refine ⟨?_, ?_⟩
      · intro seg hseg
        exact hdec (.ok seg) (List.mem_map_of_mem _ hseg)
      · rw [List.map_map]
        rfl
    · rintro ⟨hdec, rfl⟩
      refine ⟨?_, ?_, ?_⟩
      · intro it hit
        obtain ⟨seg, hs, rfl⟩ := List.mem_map.mp hit
        rfl
      · intro it hit
        obtain ⟨seg, hs, rfl⟩ := List.mem_map.mp hit
        exact hdec seg hs
      · rw [List.map_map]
        rfl
  · intro opts fs p input hp hc
    simp [run, hp, hc]

/-- Witness for C1 (amended): the stream "a\0b" from standard input yields
the two paths "a" and "b", and behaves exactly as the path-list file "f"
holding the same bytes. -/
theorem c1_witness :
    read_paths0_pure [0x61, 0x00, 0x62] = .ok ["a", "b"] ∧
    run opts1 (some "f") [] [0x33] fs3 =
      run opts1 (some "-") [] [0x61, 0x00, 0x62] fs3 :=
  ⟨((c1_stdin_pathlist_nul_split [0x61, 0x00, 0x62] ["a", "b"]).1).mpr rfl,
   (c1_stdin_pathlist_nul_split [0x61, 0x00, 0x62] ["a", "b"]).2 opts1 fs3 "f" [0x33]
     (by decide) rfl⟩
